import Mathlib

/-!
Verification development for the F1 data project: a shallow embedding of the
multi-source reconciliation / caching / aggregation core and of the frontend
components (calendar navigation, data browser filtering, analysis form), with
theorems settling the stated behavioural properties.

The core engine (provider adapters, reconciler, session cache, metrics engine,
historical aggregator) is described by the design document and the backend
README; its definitions below are modelled from the spec.  The frontend
components are translated directly from the TypeScript sources.
-/

namespace F1

/-- Modelled from the spec (§3): session type enumeration of a SessionKey. -/
inductive SessionType where
  | practice1 | practice2 | practice3 | qualifying | sprint | sprintQualifying | race
deriving DecidableEq, Repr

/-- Modelled from the spec (§3): tire compound enumeration. -/
inductive Compound where
  | soft | medium | hard | intermediate | wet
deriving DecidableEq, Repr

/-- Modelled from the spec (§3): identity value (season, event, session type)
used throughout the core. -/
structure SessionKey where
  season : Nat
  event : String
  sessionType : SessionType
deriving DecidableEq, Repr

/-- Modelled from the spec (§3): the common per-driver-per-lap schema each
provider adapter produces; missing fields are explicit `none`. -/
structure NormalizedRecord where
  driverCode : String
  lapNumber : Nat
  lapTimeMillis : Option Nat
  sectorTimesMillis : List (Option Nat)
  compound : Option Compound
  position : Option Nat
  isPersonalBest : Bool
  timestamp : Nat
deriving DecidableEq, Repr

/-- Modelled from the spec (§3): which provider contributed a driver's data in
`sourceAttribution`; a recorded discrepancy keeps both-sources data flagged. -/
inductive SourceTag where
  | rich | live | both | discrepancy
deriving DecidableEq, Repr

/-- Modelled from the spec (§3): completeness of a reconciled bundle.
`richOnly`/`liveOnly` stand for the spec's PartialRichOnly/PartialLiveOnly. -/
inductive Completeness where
  | full | richOnly | liveOnly | empty
deriving DecidableEq, Repr

/-- Modelled from the spec (§3): the single authoritative merged view of one
session produced by the reconciler. -/
structure SessionBundle where
  key : SessionKey
  laps : List NormalizedRecord
  completeness : Completeness
  sourceAttribution : List (String × SourceTag)
deriving DecidableEq, Repr

/-- Modelled from the spec (§4.1): adapter failure taxonomy. -/
inductive AdapterError where
  | notFound | unavailable | rateLimited | schemaError
deriving DecidableEq, Repr

instance {ε α : Type} [DecidableEq ε] [DecidableEq α] : DecidableEq (Except ε α) :=
  fun a b =>
  match a, b with
  | .error e1, .error e2 =>
    if h : e1 = e2 then .isTrue (by rw [h])
    else .isFalse fun hh => h (Except.error.inj hh)
  | .error _, .ok _ => .isFalse fun hh => Except.noConfusion hh
  | .ok _, .error _ => .isFalse fun hh => Except.noConfusion hh
  | .ok a1, .ok a2 =>
    if h : a1 = a2 then .isTrue (by rw [h])
    else .isFalse fun hh => h (Except.ok.inj hh)

/-- Modelled from the spec (§4.1): result of one adapter's `fetchSession`. -/
abbrev AdapterResult : Type := Except AdapterError (List NormalizedRecord)

/-- Modelled from the spec (§4.3, §7): a reconciliation failure is either
transient (retryable) or a fatal schema/data-quality error. -/
inductive ReconcileError where
  | transient | schema
deriving DecidableEq, Repr

/-- Modelled from the spec (§7): transient errors are retryable, schema
errors are fatal. -/
def ReconcileError.retryable : ReconcileError → Bool
  | .transient => true
  | .schema => false

/-- Modelled from the spec (§4.1): `unavailable`/`rateLimited` are the
transient error kinds. -/
def isTransient : AdapterError → Bool
  | .unavailable => true
  | .rateLimited => true
  | _ => false

/-- Whether an adapter result is a transient failure. -/
def isTransientResult : AdapterResult → Bool
  | .error e => isTransient e
  | .ok _ => false

/-- Modelled from the spec (§4.3 rules 1-2): field merge prefers the rich
adapter's value when both are present, otherwise keeps whichever is present. -/
def mergeField (r l : Option Nat) : Option Nat :=
  match r with
  | some rv => some rv
  | none => l

/-- Modelled from the spec (§4.3): two records describe the same lap when the
driver code and lap number agree. -/
def sameLap (a b : NormalizedRecord) : Bool :=
  a.driverCode == b.driverCode && a.lapNumber == b.lapNumber

/-- Modelled from the spec (§4.3): per-lap merge of a rich record with the
matching live record, preferring rich field values. -/
def mergeRecord (r l : NormalizedRecord) : NormalizedRecord :=
  { driverCode := r.driverCode
    lapNumber := r.lapNumber
    lapTimeMillis := mergeField r.lapTimeMillis l.lapTimeMillis
    sectorTimesMillis :=
      (r.sectorTimesMillis.zip l.sectorTimesMillis).map fun p => mergeField p.1 p.2
    compound := match r.compound with | some c => some c | none => l.compound
    position := mergeField r.position l.position
    isPersonalBest := r.isPersonalBest || l.isPersonalBest
    timestamp := r.timestamp }

/-- Modelled from the spec (§4.3): merge the two lap lists per driver per lap;
rich laps absorb their live counterparts, unmatched live laps are appended. -/
def mergeLaps (rich live : List NormalizedRecord) : List NormalizedRecord :=
  (rich.map fun r =>
    match live.find? (sameLap r) with
    | some l => mergeRecord r l
    | none => r) ++
  live.filter fun l => !(rich.any (sameLap l))

/-- Distinct driver codes appearing in a lap list, in first-appearance order. -/
def driversOf (laps : List NormalizedRecord) : List String :=
  (laps.map (·.driverCode)).dedup

/-- Modelled from the spec (§4.3 rule 4): attribute every driver of a partial
bundle to the single contributing provider. -/
def attributeAll (t : SourceTag) (laps : List NormalizedRecord) :
    List (String × SourceTag) :=
  (driversOf laps).map fun d => (d, t)

/-- Modelled from the spec (§4.3 rules 1 and 3): two present lap times agree
when they are within the 1 ms tolerance. -/
def withinTolerance (a b : Nat) : Bool :=
  a ≤ b + 1 && b ≤ a + 1

/-- Modelled from the spec (§4.3 rule 3): a driver has a recorded discrepancy
when some lap's rich and live times (or sector times) disagree beyond
tolerance. -/
def hasDiscrepancy (rich live : List NormalizedRecord) (d : String) : Bool :=
  (rich.filter fun r => r.driverCode == d).any fun r =>
    match live.find? (sameLap r) with
    | some l =>
      (match r.lapTimeMillis, l.lapTimeMillis with
       | some rt, some lt => !withinTolerance rt lt
       | _, _ => false) ||
      ((r.sectorTimesMillis.zip l.sectorTimesMillis).any fun p =>
        match p.1, p.2 with
        | some rs, some ls => !withinTolerance rs ls
        | _, _ => false)
    | none => false

/-- Modelled from the spec (§4.3): attribution for a full merge; drivers
present in both sources are tagged `both`, or `discrepancy` when some field
disagreed beyond tolerance. -/
def mergeAttribution (rich live : List NormalizedRecord) :
    List (String × SourceTag) :=
  (driversOf (rich ++ live)).map fun d =>
    if (rich.any fun r => r.driverCode == d) then
      if (live.any fun l => l.driverCode == d) then
        if hasDiscrepancy rich live d then (d, SourceTag.discrepancy)
        else (d, SourceTag.both)
      else (d, SourceTag.rich)
    else (d, SourceTag.live)

/-- The empty bundle produced when both adapters definitively report no data. -/
def emptyBundle (k : SessionKey) : SessionBundle :=
  { key := k, laps := [], completeness := .empty, sourceAttribution := [] }

/-- Modelled from the spec (§4.3): merge the two adapters' outputs for one
session.  Transient failures abort the reconciliation (retryable); a schema
error is fatal; `notFound` is structural absence; two `notFound`s give an
empty bundle; two successes give a full per-driver-per-lap merge. -/
def reconcile (k : SessionKey) (rich live : AdapterResult) :
    Except ReconcileError SessionBundle :=
  match rich, live with
  | .error er, .error el =>
    if isTransient er || isTransient el then .error .transient
    else if er == .schemaError || el == .schemaError then .error .schema
    else .ok (emptyBundle k)
  | .error er, .ok liveLaps =>
    if isTransient er then .error .transient
    else if er == .schemaError then .error .schema
    else .ok { key := k, laps := liveLaps, completeness := .liveOnly,
               sourceAttribution := attributeAll .live liveLaps }
  | .ok richLaps, .error el =>
    if isTransient el then .error .transient
    else if el == .schemaError then .error .schema
    else .ok { key := k, laps := richLaps, completeness := .richOnly,
               sourceAttribution := attributeAll .rich richLaps }
  | .ok richLaps, .ok liveLaps =>
    .ok { key := k, laps := mergeLaps richLaps liveLaps, completeness := .full,
          sourceAttribution := mergeAttribution richLaps liveLaps }

/-- Modelled from the spec (§3 invariant, §4.3 rule 5): how long a cached
entry may be trusted; empty (negative) results get only a short window. -/
inductive Validity where
  | shortWindow | untilInvalidated
deriving DecidableEq, Repr

/-- Modelled from the spec (§3 invariant): a failed reconciliation is never
cached; an empty bundle is cache-eligible with a short validity window; any
other bundle is cached until explicitly invalidated. -/
def cacheDecision : Except ReconcileError SessionBundle → Option Validity
  | .error _ => none
  | .ok b => if b.completeness == .empty then some .shortWindow
             else some .untilInvalidated

/-- Modelled from the spec (§4.4): fastest lap of a lap list = the record with
minimum non-null `lapTimeMillis`, ties broken by earliest `lapNumber`;
`none` when no lap has a non-null time. -/
def fastestLap : List NormalizedRecord → Option NormalizedRecord
  | [] => none
  | l :: ls =>
    match fastestLap ls with
    | none => if l.lapTimeMillis.isSome then some l else none
    | some b =>
      match l.lapTimeMillis, b.lapTimeMillis with
      | none, _ => some b
      | some ct, some bt =>
        if ct < bt ∨ (ct = bt ∧ l.lapNumber < b.lapNumber) then some l else some b
      | some _, none => some l

/-- Modelled from the spec (§4.4): partition a driver's ordered lap sequence
into maximal contiguous runs sharing one tire compound. -/
def stints : List NormalizedRecord → List (List NormalizedRecord)
  | [] => []
  | l :: ls =>
    match stints ls with
    | [] => [[l]]
    | [] :: ss => [l] :: ss
    | (m :: ms) :: ss =>
      if l.compound = m.compound then (l :: m :: ms) :: ss
      else [l] :: (m :: ms) :: ss

/-- The laps of one driver within a bundle, in stored order. -/
def lapsOf (b : SessionBundle) (d : String) : List NormalizedRecord :=
  b.laps.filter fun l => l.driverCode == d

/-- Modelled from the spec (§3, §4.4): the derived per-session statistics kept
by this development — fastest lap and stint lengths per driver. -/
structure MetricsReport where
  fastestLaps : List (String × Option NormalizedRecord)
  stintLengths : List (String × List Nat)
deriving DecidableEq, Repr

/-- Modelled from the spec (§4.4): pure derivation of per-driver statistics
from a bundle; recomputed on every request, no I/O. -/
def computeMetrics (b : SessionBundle) : MetricsReport :=
  { fastestLaps := (driversOf b.laps).map fun d => (d, fastestLap (lapsOf b d))
    stintLengths :=
      (driversOf b.laps).map fun d => (d, (stints (lapsOf b d)).map List.length) }

/-- A lap record with the given driver, lap number, time and compound; the
remaining fields take fixed placeholder values.  Used for concrete checks. -/
def exLap (d : String) (n : Nat) (t : Option Nat) (c : Option Compound) :
    NormalizedRecord :=
  { driverCode := d, lapNumber := n, lapTimeMillis := t,
    sectorTimesMillis := [none, none, none], compound := c, position := none,
    isPersonalBest := false, timestamp := 0 }

/-- A concrete session key used in witnesses. -/
def exKey : SessionKey := ⟨2024, "monaco", .race⟩

/-- A lap list with a lap-time tie between laps 2 and 3. -/
def exTieLaps : List NormalizedRecord :=
  [exLap "VER" 1 (some 80000) none, exLap "VER" 2 (some 78000) none,
   exLap "VER" 3 (some 78000) none]

/-- A rich-only bundle holding the tied laps. -/
def exTieBundle : SessionBundle :=
  { key := exKey, laps := exTieLaps, completeness := .richOnly,
    sourceAttribution := [("VER", .rich)] }

/-- A lap list whose compound sequence is soft, soft, medium, medium, medium,
hard. -/
def exStintLaps : List NormalizedRecord :=
  [exLap "VER" 1 (some 80000) (some .soft),
   exLap "VER" 2 (some 80100) (some .soft),
   exLap "VER" 3 (some 80200) (some .medium),
   exLap "VER" 4 (some 80300) (some .medium),
   exLap "VER" 5 (some 80400) (some .medium),
   exLap "VER" 6 (some 80500) (some .hard)]

/-- A rich-only bundle holding the stint example laps. -/
def exStintBundle : SessionBundle :=
  { key := exKey, laps := exStintLaps, completeness := .richOnly,
    sourceAttribution := [("VER", .rich)] }

/-- Modelled from the spec (§3): an aggregate report: ordered per-session
entries plus an explicit machine-readable list of skipped keys with their
failure reasons. -/
structure AggregateReport where
  entries : List (SessionKey × MetricsReport)
  skipped : List (SessionKey × ReconcileError)
deriving DecidableEq, Repr

/-- Modelled from the spec (§3, §4.2): the session cache as a single
authoritative mapping from key to bundle. -/
abbrev Cache : Type := List (SessionKey × SessionBundle)

/-- Cache lookup: the bundle stored for a key, if any. -/
def getCache (c : Cache) (k : SessionKey) : Option SessionBundle :=
  match c with
  | [] => none
  | (k2, b) :: rest => if k = k2 then some b else getCache rest k

/-- Modelled from the spec (§2 data flow): the deterministic outcome of
fetching one key through both adapters and reconciling. -/
def fetchOutcome (fr fl : SessionKey → AdapterResult) (k : SessionKey) :
    Except ReconcileError SessionBundle :=
  reconcile k (fr k) (fl k)

/-- Modelled from the spec (§2, §4.2): resolve one key through the cache —
serve a hit, otherwise reconcile the adapters' results and populate the cache
on success. -/
def resolveKey (fr fl : SessionKey → AdapterResult) (c : Cache) (k : SessionKey) :
    Except ReconcileError SessionBundle × Cache :=
  match getCache c k with
  | some b => (.ok b, c)
  | none =>
    match fetchOutcome fr fl k with
    | .ok b => (.ok b, (k, b) :: c)
    | .error e => (.error e, c)

/-- The cache state after the aggregator resolved the given keys in order. -/
def runCache (fr fl : SessionKey → AdapterResult) :
    List SessionKey → Cache → Cache
  | [], c => c
  | k :: ks, c => runCache fr fl ks (resolveKey fr fl c k).2

/-- Modelled from the spec (§4.5, §7): the aggregator's report over the given
keys — each session either contributes an entry with its metrics or is
recorded as skipped with its failure reason; the aggregate itself is total. -/
def runReport (fr fl : SessionKey → AdapterResult) :
    List SessionKey → Cache → AggregateReport
  | [], _ => ⟨[], []⟩
  | k :: ks, c =>
    match (resolveKey fr fl c k).1 with
    | .ok b =>
      ⟨(k, computeMetrics b) :: (runReport fr fl ks (resolveKey fr fl c k).2).entries,
       (runReport fr fl ks (resolveKey fr fl c k).2).skipped⟩
    | .error e =>
      ⟨(runReport fr fl ks (resolveKey fr fl c k).2).entries,
       (k, e) :: (runReport fr fl ks (resolveKey fr fl c k).2).skipped⟩

/-- Modelled from the spec (§4.5): one aggregate call — the report plus the
cache state it leaves behind. -/
def aggregateRun (fr fl : SessionKey → AdapterResult) (ks : List SessionKey)
    (c : Cache) : AggregateReport × Cache :=
  (runReport fr fl ks c, runCache fr fl ks c)

/-- The cache-free reference aggregate: fold the deterministic fetch outcome
of every key. -/
def pureAggregate (fr fl : SessionKey → AdapterResult) :
    List SessionKey → AggregateReport
  | [] => ⟨[], []⟩
  | k :: ks =>
    match fetchOutcome fr fl k with
    | .ok b =>
      ⟨(k, computeMetrics b) :: (pureAggregate fr fl ks).entries,
       (pureAggregate fr fl ks).skipped⟩
    | .error e =>
      ⟨(pureAggregate fr fl ks).entries,
       (k, e) :: (pureAggregate fr fl ks).skipped⟩

/-- A cache is coherent when every stored bundle is exactly what reconciling
the (immutable-season, deterministic) adapters would produce for its key. -/
def coherent (fr fl : SessionKey → AdapterResult) (c : Cache) : Prop :=
  ∀ k b, getCache c k = some b → fetchOutcome fr fl k = .ok b

/-- Adapter pair used in concrete aggregate witnesses: rich succeeds with the
tied laps, live definitively has no data. -/
def exFr : SessionKey → AdapterResult := fun _ => Except.ok exTieLaps

/-- Live adapter of the witness pair: always `notFound`. -/
def exFl : SessionKey → AdapterResult := fun _ => Except.error .notFound

/-- A second concrete key, used as the one failing session. -/
def exKey2 : SessionKey := ⟨2024, "silverstone", .race⟩

/-- Rich adapter that is unavailable for `exKey2` only. -/
def exFrFail : SessionKey → AdapterResult := fun k =>
  if k = exKey2 then Except.error .unavailable else Except.ok exTieLaps

/-- Modelled from the spec (§4.2, §5): the observable single-flight state of
the cache for one key — the published bundle, whether a fetch is in flight,
how many callers wait on it, and how many underlying fetches were issued. -/
structure FlightState where
  cached : Option SessionBundle
  inFlight : Bool
  waiters : Nat
  fetches : Nat
deriving DecidableEq, Repr

/-- Modelled from the spec (§4.2): events at the cache for one key — a
caller's `get` arriving, or the in-flight fetch completing with a bundle. -/
inductive CacheEvent where
  | request
  | complete (b : SessionBundle)
deriving DecidableEq, Repr

/-- Modelled from the spec (§4.2, §9 single-flight): a request is served from
the cache if populated, coalesces onto an in-flight fetch as a waiter, and
only from the cold idle state issues the one underlying fetch; a completion
publishes the bundle and releases the waiters. -/
def stepEvent (s : FlightState) : CacheEvent → FlightState
  | .request =>
    match s.cached with
    | some _ => s
    | none =>
      if s.inFlight then { s with waiters := s.waiters + 1 }
      else { s with inFlight := true, fetches := s.fetches + 1 }
  | .complete b =>
    if s.inFlight then
      { cached := some b, inFlight := false, waiters := 0, fetches := s.fetches }
    else s

/-- Run a sequence of interleaved cache events from a state. -/
def runEvents (s : FlightState) (es : List CacheEvent) : FlightState :=
  es.foldl stepEvent s

/-- The cold state for a key: nothing cached, no fetch in flight. -/
def coldState : FlightState := ⟨none, false, 0, 0⟩

/-- Whether an event is a caller's request. -/
def isRequest : CacheEvent → Bool
  | .request => true
  | .complete _ => false

/-- Single-flight invariant: either no fetch was ever issued and the key is
cold, or exactly one fetch was issued and it is in flight or published. -/
def flightInv (s : FlightState) : Prop :=
  (s.fetches = 0 ∧ s.inFlight = false ∧ s.cached = none) ∨
  (s.fetches = 1 ∧ (s.inFlight = true ∨ s.cached ≠ none))

/-- Modelled from the spec (§9): the dynamically-typed form data assembled by
the UI's AnalysisForm.handleSubmit — every field optional and stringly. -/
structure RawAnalysisForm where
  year : Option String
  grandPrix : Option String
  session : Option String
  driver1 : Option String
  driver2 : Option String
deriving DecidableEq, Repr

/-- Modelled from the spec (§9): the closed configuration structure
enumerating the recognized filters per scope — driver codes, season range,
events and session types. -/
structure FilterConfig where
  driverCodes : List String
  seasonMin : Nat
  seasonMax : Nat
  events : List String
  sessionTypes : List (String × SessionType)
deriving DecidableEq, Repr

/-- Modelled from the spec (§9): the typed analysis request that alone enters
the core pipeline. -/
structure AnalysisRequest where
  driver : String
  season : Nat
  event : String
  sessionType : SessionType
deriving DecidableEq, Repr

/-- Parse a run of decimal digits into a number, failing on any other
character. -/
def parseNatAux : List Char → Nat → Option Nat
  | [], acc => some acc
  | c :: cs, acc =>
    if c.isDigit then parseNatAux cs (acc * 10 + (c.toNat - 48)) else none

/-- Parse a non-empty decimal string (the UI submits the season as a
string). -/
def parseNat (s : String) : Option Nat :=
  if s.data.isEmpty then none else parseNatAux s.data 0

/-- Modelled from the spec (§9): explicit validation at the core boundary —
raw form data is checked field by field against the closed configuration and
only a fully recognized request is admitted. -/
def validateRequest (cfg : FilterConfig) (f : RawAnalysisForm) :
    Option AnalysisRequest :=
  match f.year, f.grandPrix, f.session, f.driver1 with
  | some y, some ev, some st, some d =>
    match parseNat y with
    | none => none
    | some n =>
      if cfg.seasonMin ≤ n ∧ n ≤ cfg.seasonMax ∧ ev ∈ cfg.events ∧
          d ∈ cfg.driverCodes then
        match cfg.sessionTypes.lookup st with
        | some t => some ⟨d, n, ev, t⟩
        | none => none
      else none
  | _, _, _, _ => none

/-- A concrete configuration mirroring the UI's option lists and the
2021-2025 season window. -/
def exConfig : FilterConfig :=
  { driverCodes := ["HAM", "VER", "NOR", "LEC", "PER"]
    seasonMin := 2021
    seasonMax := 2025
    events := ["monaco", "silverstone", "monza", "spa", "suzuka"]
    sessionTypes := [("race", .race), ("qualifying", .qualifying),
      ("sprint", .sprint), ("practice1", .practice1),
      ("practice2", .practice2), ("practice3", .practice3)] }

/-- A concrete raw form as the UI would submit it. -/
def exForm : RawAnalysisForm :=
  { year := some "2024", grandPrix := some "monaco", session := some "race",
    driver1 := some "VER", driver2 := none }

/-- From CalendarView (frontend): the navigation operations acting on the
selected round — next/previous buttons and clicking one of the race tabs
(a tab exists only for an index of the race list). -/
inductive NavOp (len : Nat) where
  | nextRace
  | prevRace
  | selectTab (i : Fin len)

/-- From CalendarView.nextRace, CalendarView.prevRace and
RaceTabs.onSelectRound(index + 1): one update of the selected round. -/
def applyNav (len : Nat) (r : Nat) : NavOp len → Nat
  | .nextRace => if r < len then r + 1 else r
  | .prevRace => if 1 < r then r - 1 else r
  | .selectTab i => i.val + 1

/-- The selected round after a sequence of operations, starting from the
initial useState value 1. -/
def runNav (len : Nat) (ops : List (NavOp len)) : Nat :=
  ops.foldl (applyNav len) 1

/-- From RaceNavigation: the previous-race button is disabled exactly when
selectedRound === 1. -/
def prevDisabled (r : Nat) : Bool := r == 1

/-- From RaceNavigation: the next-race button is disabled exactly when
selectedRound === totalRaces. -/
def nextDisabled (r totalRaces : Nat) : Bool := r == totalRaces

/-- A concrete operation sequence on a three-race calendar. -/
def exNavOps : List (NavOp 3) :=
  [.nextRace, .nextRace, .nextRace, .selectTab 0, .prevRace]

/-- From DataBrowser (frontend): one item of the browser list. -/
structure DataItem where
  id : String
  name : String
  code : Option String
  flag : Option String
  year : Option Nat
deriving DecidableEq, Repr

/-- JavaScript's toLowerCase on the character list of a string. -/
def toLowerChars (cs : List Char) : List Char := cs.map Char.toLower

/-- Whether the pattern occurs as a contiguous run at the start of the
character list. -/
def leadsWith : List Char → List Char → Bool
  | [], _ => true
  | _ :: _, [] => false
  | a :: as, b :: bs => a == b && leadsWith as bs

/-- JavaScript's String.prototype.includes on character lists: the pattern
occurs contiguously somewhere in the string. -/
def includesB (pat : List Char) : List Char → Bool
  | [] => pat.isEmpty
  | c :: cs => leadsWith pat (c :: cs) || includesB pat cs

/-- From DataBrowser.filteredItems: keep the items whose lower-cased name
contains the lower-cased query, or whose code is present, truthy (non-empty,
per JavaScript) and contains the query. -/
def filteredItems (searchQuery : String) (items : List DataItem) :
    List DataItem :=
  items.filter fun item =>
    includesB (toLowerChars searchQuery.data) (toLowerChars item.name.data) ||
    (match item.code with
     | some c => !(c == "") &&
         includesB (toLowerChars searchQuery.data) (toLowerChars c.data)
     | none => false)

/-- The match predicate in the words of the claim: the name contains the
query case-insensitively, or the optional code is present and contains the
query case-insensitively. -/
def matchesQuery (q : String) (item : DataItem) : Bool :=
  includesB (toLowerChars q.data) (toLowerChars item.name.data) ||
  (match item.code with
   | some c => includesB (toLowerChars q.data) (toLowerChars c.data)
   | none => false)

end F1

namespace F1

theorem fastestLap_eq_none (ls : List NormalizedRecord)
    (h : fastestLap ls = none) : ∀ l ∈ ls, l.lapTimeMillis = none := by
  induction ls with
  | nil => intro l hl; cases hl
  | cons a as ih =>
    simp only [fastestLap] at h
    split at h
    · rename_i hfa
      split at h
      · cases h
      · rename_i ha
        intro l hl
        rcases List.mem_cons.mp hl with heq | hl
        · subst heq
          rcases hx : l.lapTimeMillis with _ | t
          · rfl
          · rw [hx] at ha; simp at ha
        · exact ih hfa l hl
    · split at h
      · cases h
      · split at h <;> cases h
      · cases h

theorem fastestLap_eq_some (ls : List NormalizedRecord) (r : NormalizedRecord)
    (h : fastestLap ls = some r) :
    r ∈ ls ∧ ∃ t, r.lapTimeMillis = some t ∧
      ∀ l ∈ ls, ∀ u, l.lapTimeMillis = some u →
        t < u ∨ (t = u ∧ r.lapNumber ≤ l.lapNumber) := by
  induction ls generalizing r with
  | nil => cases h
  | cons a as ih =>
    simp only [fastestLap] at h
    split at h
    · rename_i hfa
      split at h
      · rename_i ha
        injection h with h
        subst h
        rcases ht : a.lapTimeMillis with _ | t
        · rw [ht] at ha; simp at ha
        · refine ⟨List.mem_cons_self _ _, t, rfl, ?_⟩
          intro l hl u hu
          rcases List.mem_cons.mp hl with heq | hl
          · subst heq
            rw [ht] at hu
            injection hu with hu
            exact Or.inr ⟨hu, le_refl _⟩
          · rw [fastestLap_eq_none as hfa l hl] at hu; cases hu
      · cases h
    · rename_i b hfa
      obtain ⟨hbmem, tb, htb, hbest⟩ := ih b hfa
      split at h
      · injection h with h
        subst h
        rename_i hx
        refine ⟨List.mem_cons_of_mem _ hbmem, tb, htb, ?_⟩
        intro l hl u hu
        rcases List.mem_cons.mp hl with heq | hl
        · subst heq; rw [hx] at hu; cases hu
        · exact hbest l hl u hu
      · rename_i ct bt hx hy
        rw [htb] at hy
        injection hy with hy
        subst hy
        split at h
        · rename_i hc
          injection h with h
          subst h
          refine ⟨List.mem_cons_self _ _, ct, hx, ?_⟩
          intro l hl u hu
          rcases List.mem_cons.mp hl with heq | hl
          · subst heq
            rw [hx] at hu
            injection hu with hu
            exact Or.inr ⟨hu, le_refl _⟩
          · rcases hbest l hl u hu with hlt | ⟨hteq, hle⟩
            · rcases hc with hc | ⟨hc, _⟩
              · exact Or.inl (lt_trans hc hlt)
              · exact Or.inl (hc.symm ▸ hlt)
            · rcases hc with hc | ⟨hc, hn⟩
              · exact Or.inl (hteq ▸ hc)
              · exact Or.inr ⟨hc.trans hteq, le_trans (le_of_lt hn) hle⟩
        · rename_i hc
          injection h with h
          subst h
          refine ⟨List.mem_cons_of_mem _ hbmem, tb, htb, ?_⟩
          intro l hl u hu
          rcases List.mem_cons.mp hl with heq | hl
          · subst heq
            rw [hx] at hu
            injection hu with hu
            subst hu
            push_neg at hc
            rcases lt_or_eq_of_le hc.1 with hlt | hteq
            · exact Or.inl hlt
            · exact Or.inr ⟨hteq, hc.2 hteq.symm⟩
          · exact hbest l hl u hu
      · rename_i hx hy
        rw [htb] at hy; cases hy

/-- C1: if both adapters return `notFound`, `reconcile` succeeds with the
empty bundle, its completeness is `empty`, and the result is cache-eligible
with a short validity window. -/
theorem reconcile_both_notFound_empty_cacheable (k : SessionKey) :
    reconcile k (Except.error .notFound) (Except.error .notFound) =
      Except.ok (emptyBundle k) ∧
    (emptyBundle k).completeness = Completeness.empty ∧
    cacheDecision (reconcile k (Except.error .notFound) (Except.error .notFound)) =
      some Validity.shortWindow := by
  refine ⟨rfl, rfl, rfl⟩

/-- C2: a transient failure (`unavailable`/`rateLimited`) on either side makes
reconciliation fail with a retryable error and no bundle; and a partial bundle
arises only when the absent side failed with the definitive `notFound`. -/
theorem reconcile_transient_fails_partial_only_from_notFound :
    (∀ (k : SessionKey) (r l : AdapterResult),
      isTransientResult r = true ∨ isTransientResult l = true →
      ∃ e, reconcile k r l = Except.error e ∧ e.retryable = true) ∧
    (∀ (k : SessionKey) (r l : AdapterResult) (b : SessionBundle),
      reconcile k r l = Except.ok b →
      (b.completeness = Completeness.richOnly → l = Except.error .notFound) ∧
      (b.completeness = Completeness.liveOnly → r = Except.error .notFound)) := by
  constructor
  · intro k r l h
    refine ⟨ReconcileError.transient, ?_, rfl⟩
    rcases r with er | rl <;> rcases l with el | ll
    · simp only [isTransientResult] at h
      rcases h with h | h <;> simp [reconcile, h]
    · simp [isTransientResult] at h
      simp [reconcile, h]
    · simp [isTransientResult] at h
      simp [reconcile, h]
    · simp [isTransientResult] at h
  · intro k r l b h
    rcases r with er | rl <;> rcases l with el | ll <;>
      simp only [reconcile] at h
    · by_cases ht : (isTransient er || isTransient el) = true
      · rw [if_pos ht] at h; exact absurd h (by simp)
      · rw [if_neg ht] at h
        by_cases hs : (er == AdapterError.schemaError || el == AdapterError.schemaError) = true
        · rw [if_pos hs] at h; exact absurd h (by simp)
        · rw [if_neg hs] at h
          injection h with h
          subst h
          constructor <;> intro hc <;> simp [emptyBundle] at hc
    · by_cases ht : isTransient er = true
      · rw [if_pos ht] at h; exact absurd h (by simp)
      · rw [if_neg ht] at h
        by_cases hs : (er == AdapterError.schemaError) = true
        · rw [if_pos hs] at h; exact absurd h (by simp)
        · rw [if_neg hs] at h
          injection h with h
          subst h
          constructor <;> intro hc
          · simp at hc
          · cases er with
            | notFound => rfl
            | unavailable => exact absurd rfl ht
            | rateLimited => exact absurd rfl ht
            | schemaError => exact absurd rfl hs
    · by_cases ht : isTransient el = true
      · rw [if_pos ht] at h; exact absurd h (by simp)
      · rw [if_neg ht] at h
        by_cases hs : (el == AdapterError.schemaError) = true
        · rw [if_pos hs] at h; exact absurd h (by simp)
        · rw [if_neg hs] at h
          injection h with h
          subst h
          constructor <;> intro hc
          · cases el with
            | notFound => rfl
            | unavailable => exact absurd rfl ht
            | rateLimited => exact absurd rfl ht
            | schemaError => exact absurd rfl hs
          · simp at hc
    · injection h with h
      subst h
      constructor <;> intro hc <;> simp at hc

/-- Witness for C2 at a concrete transient input: a rate-limited live source
makes reconciliation fail retryably. -/
theorem reconcile_transient_fails_witness :
    ∃ e, reconcile ⟨2024, "monaco", .race⟩
        (Except.ok []) (Except.error .rateLimited) = Except.error e ∧
      e.retryable = true :=
  reconcile_transient_fails_partial_only_from_notFound.1
    ⟨2024, "monaco", .race⟩ (Except.ok []) (Except.error .rateLimited)
    (Or.inr (by decide))

end F1

namespace F1

theorem stints_props (ls : List NormalizedRecord) :
    (stints ls).flatten = ls ∧
    (∀ s ∈ stints ls, s ≠ [] ∧ ∀ a ∈ s, ∀ c ∈ s, a.compound = c.compound) ∧
    List.Chain' (fun s t => s.head?.map (·.compound) ≠ t.head?.map (·.compound))
      (stints ls) := by
  induction ls with
  | nil =>
    refine ⟨rfl, ?_, List.chain'_nil⟩
    intro s hs; cases hs
  | cons l ls ih =>
    obtain ⟨hjoin, huni, hchain⟩ := ih
    simp only [stints]
    split
    · rename_i hnil
      have hls : ls = [] := by
        have hj := hjoin
        rw [hnil] at hj
        simpa using hj.symm
      subst hls
      refine ⟨by simp, ?_, by simp⟩
      intro s hs
      have hs1 : s = [l] := by simpa using hs
      subst hs1
      refine ⟨by simp, ?_⟩
      intro a ha c hc
      have ha1 : a = l := by simpa using ha
      have hc1 : c = l := by simpa using hc
      rw [ha1, hc1]
    · rename_i ss hcons
      exfalso
      have hmem : ([] : List NormalizedRecord) ∈ stints ls := by
        rw [hcons]; exact List.mem_cons_self _ _
      exact (huni _ hmem).1 rfl
    · rename_i m ms ss hcons
      have hj : (m :: ms) ++ ss.flatten = ls := by
        rw [hcons] at hjoin
        simpa using hjoin
      have hganz : (m :: ms) ∈ stints ls := by
        rw [hcons]; exact List.mem_cons_self _ _
      have huni0 := (huni _ hganz).2
      have hchain0 : List.Chain'
          (fun s t => s.head?.map (·.compound) ≠ t.head?.map (·.compound))
          ((m :: ms) :: ss) := by
        rw [hcons] at hchain; exact hchain
      split
      · rename_i hcomp
        refine ⟨?_, ?_, ?_⟩
        · simp only [List.flatten]
          rw [← hj]
          simp
        · intro s hs
          rcases List.mem_cons.mp hs with heq | hs
          · subst heq
            refine ⟨by simp, ?_⟩
            intro a ha c hc
            rcases List.mem_cons.mp ha with ha1 | ha2 <;>
              rcases List.mem_cons.mp hc with hc1 | hc2
            · rw [ha1, hc1]
            · rw [ha1, hcomp]
              exact huni0 m (List.mem_cons_self _ _) c hc2
            · rw [hc1, hcomp]
              exact (huni0 m (List.mem_cons_self _ _) a ha2).symm
            · exact huni0 a ha2 c hc2
          · have : s ∈ stints ls := by
              rw [hcons]; exact List.mem_cons_of_mem _ hs
            exact huni _ this
        · cases ss with
          | nil => simp
          | cons s2 rest =>
            rw [List.chain'_cons] at hchain0 ⊢
            refine ⟨?_, hchain0.2⟩
            have := hchain0.1
            simpa [hcomp] using this
      · rename_i hcomp
        refine ⟨?_, ?_, ?_⟩
        · simp only [List.flatten]
          rw [← hj]
          simp
        · intro s hs
          rcases List.mem_cons.mp hs with heq | hs
          · subst heq
            refine ⟨by simp, ?_⟩
            intro a ha c hc
            have ha1 : a = l := by simpa using ha
            have hc1 : c = l := by simpa using hc
            rw [ha1, hc1]
          · have : s ∈ stints ls := by rw [hcons]; exact hs
            exact huni _ this
        · refine List.Chain'.cons ?_ hchain0
          simpa using hcomp

/-- C4: for every bundle and driver with at least one non-null lap time,
`computeMetrics` reports that driver's fastest lap, which is the minimum
non-null `lapTimeMillis`; on ties the lap with the earliest `lapNumber`
is selected. -/
theorem computeMetrics_fastestLap_min_earliest (b : SessionBundle) (d : String)
    (hd : d ∈ driversOf b.laps)
    (hsome : ∃ l ∈ lapsOf b d, l.lapTimeMillis.isSome = true) :
    (d, fastestLap (lapsOf b d)) ∈ (computeMetrics b).fastestLaps ∧
    ∃ r, fastestLap (lapsOf b d) = some r ∧ r ∈ lapsOf b d ∧
      ∃ t, r.lapTimeMillis = some t ∧
        ∀ l ∈ lapsOf b d, ∀ u, l.lapTimeMillis = some u →
          t < u ∨ (t = u ∧ r.lapNumber ≤ l.lapNumber) := by
  constructor
  · simp only [computeMetrics]
    exact List.mem_map_of_mem _ hd
  · rcases hfl : fastestLap (lapsOf b d) with _ | r
    · exfalso
      obtain ⟨l, hl, hls⟩ := hsome
      rw [fastestLap_eq_none _ hfl l hl] at hls
      simp at hls
    · obtain ⟨hmem, t, ht, hbest⟩ := fastestLap_eq_some _ _ hfl
      exact ⟨r, rfl, hmem, t, ht, hbest⟩

/-- Witness for C4: on the concrete tied bundle, the reported fastest lap is
lap 2, the earliest of the two 78000 ms laps. -/
theorem computeMetrics_fastestLap_witness :
    ("VER", fastestLap (lapsOf exTieBundle "VER")) ∈
      (computeMetrics exTieBundle).fastestLaps ∧
    fastestLap (lapsOf exTieBundle "VER") =
      some (exLap "VER" 2 (some 78000) none) :=
  ⟨(computeMetrics_fastestLap_min_earliest exTieBundle "VER" (by decide)
      (by decide)).1, by decide⟩

/-- C5: `stints` partitions every lap list into the maximal contiguous runs of
laps sharing one tire compound (the concatenation restores the list, every
stint is nonempty and compound-uniform, and adjacent stints differ in
compound); on the compound sequence soft, soft, medium, medium, medium, hard
the metrics report stint lengths [2, 3, 1]. -/
theorem stints_partition_maximal_runs :
    (∀ laps : List NormalizedRecord,
      (stints laps).flatten = laps ∧
      (∀ s ∈ stints laps, s ≠ [] ∧ ∀ a ∈ s, ∀ c ∈ s, a.compound = c.compound) ∧
      List.Chain' (fun s t => s.head?.map (·.compound) ≠ t.head?.map (·.compound))
        (stints laps)) ∧
    (computeMetrics exStintBundle).stintLengths = [("VER", [2, 3, 1])] :=
  ⟨stints_props, by decide⟩

/-- Witness for C5: the partition properties evaluated on the concrete
six-lap example. -/
theorem stints_partition_witness :
    (stints exStintLaps).flatten = exStintLaps ∧
    (stints exStintLaps).map List.length = [2, 3, 1] :=
  ⟨(stints_partition_maximal_runs.1 exStintLaps).1, by decide⟩

end F1

namespace F1

theorem getCache_cons (k k2 : SessionKey) (b : SessionBundle) (c : Cache) :
    getCache ((k2, b) :: c) k = if k = k2 then some b else getCache c k := rfl

theorem runReport_coherent (fr fl : SessionKey → AdapterResult)
    (ks : List SessionKey) : ∀ c : Cache, coherent fr fl c →
    runReport fr fl ks c = pureAggregate fr fl ks ∧
    coherent fr fl (runCache fr fl ks c) := by
  induction ks with
  | nil => intro c hc; exact ⟨rfl, hc⟩
  | cons k ks ih =>
    intro c hc
    rcases hg : getCache c k with _ | b
    · rcases hf : fetchOutcome fr fl k with e | b
      · have hrc : resolveKey fr fl c k = (.error e, c) := by
          simp [resolveKey, hg, hf]
        obtain ⟨h1, h2⟩ := ih c hc
        constructor
        · simp [runReport, hrc, pureAggregate, hf, h1]
        · simpa [runCache, hrc] using h2
      · have hrc : resolveKey fr fl c k = (.ok b, (k, b) :: c) := by
          simp [resolveKey, hg, hf]
        have hc2 : coherent fr fl ((k, b) :: c) := by
          intro k2 b2 h2
          rw [getCache_cons] at h2
          by_cases hkk : k2 = k
          · rw [if_pos hkk] at h2
            injection h2 with h2
            subst h2
            subst hkk
            exact hf
          · rw [if_neg hkk] at h2
            exact hc k2 b2 h2
        obtain ⟨h1, h2⟩ := ih _ hc2
        constructor
        · simp [runReport, hrc, pureAggregate, hf, h1]
        · simpa [runCache, hrc] using h2
    · have hb := hc k b hg
      have hrc : resolveKey fr fl c k = (.ok b, c) := by simp [resolveKey, hg]
      obtain ⟨h1, h2⟩ := ih c hc
      constructor
      · simp [runReport, hrc, pureAggregate, hb, h1]
      · simpa [runCache, hrc] using h2

theorem runReport_cold (fr fl : SessionKey → AdapterResult)
    (ks : List SessionKey) : ∀ c : Cache, ks.Nodup →
    (∀ k ∈ ks, getCache c k = none) →
    runReport fr fl ks c = pureAggregate fr fl ks := by
  induction ks with
  | nil => intro c _ _; rfl
  | cons k ks ih =>
    intro c hnd hcold
    have hg : getCache c k = none := hcold k (List.mem_cons_self _ _)
    obtain ⟨hknotin, hnd2⟩ := List.nodup_cons.mp hnd
    rcases hf : fetchOutcome fr fl k with e | b
    · have hrc : resolveKey fr fl c k = (.error e, c) := by
        simp [resolveKey, hg, hf]
      have hcold2 : ∀ k2 ∈ ks, getCache c k2 = none :=
        fun k2 h2 => hcold k2 (List.mem_cons_of_mem _ h2)
      simp [runReport, hrc, pureAggregate, hf, ih c hnd2 hcold2]
    · have hrc : resolveKey fr fl c k = (.ok b, (k, b) :: c) := by
        simp [resolveKey, hg, hf]
      have hcold2 : ∀ k2 ∈ ks, getCache ((k, b) :: c) k2 = none := by
        intro k2 h2
        rw [getCache_cons]
        have hne : k2 ≠ k := fun heq => hknotin (heq ▸ h2)
        rw [if_neg hne]
        exact hcold k2 (List.mem_cons_of_mem _ h2)
      simp [runReport, hrc, pureAggregate, hf, ih _ hnd2 hcold2]

theorem pureAggregate_all_ok (fr fl : SessionKey → AdapterResult)
    (ks : List SessionKey)
    (hok : ∀ k ∈ ks, ∃ b, fetchOutcome fr fl k = .ok b) :
    (pureAggregate fr fl ks).entries.length = ks.length ∧
    (pureAggregate fr fl ks).skipped = [] := by
  induction ks with
  | nil => exact ⟨rfl, rfl⟩
  | cons k ks ih =>
    obtain ⟨b, hb⟩ := hok k (List.mem_cons_self _ _)
    obtain ⟨h1, h2⟩ :=
      ih (fun k2 h2 => hok k2 (List.mem_cons_of_mem _ h2))
    constructor
    · simp [pureAggregate, hb, h1]
    · simp [pureAggregate, hb, h2]

theorem pureAggregate_single_failure (fr fl : SessionKey → AdapterResult)
    (kf : SessionKey) (e : ReconcileError) (ks : List SessionKey) :
    ks.Nodup → kf ∈ ks → fetchOutcome fr fl kf = .error e →
    (∀ k ∈ ks, k ≠ kf → ∃ b, fetchOutcome fr fl k = .ok b) →
    (pureAggregate fr fl ks).entries.length = ks.length - 1 ∧
    (pureAggregate fr fl ks).skipped = [(kf, e)] := by
  induction ks with
  | nil => intro _ hkf; cases hkf
  | cons k ks ih =>
    intro hnd hkf hfail hok
    obtain ⟨hknotin, hnd2⟩ := List.nodup_cons.mp hnd
    rcases List.mem_cons.mp hkf with heq | hmem
    · subst heq
      have hks : ∀ k2 ∈ ks, ∃ b, fetchOutcome fr fl k2 = .ok b := by
        intro k2 h2
        refine hok k2 (List.mem_cons_of_mem _ h2) ?_
        intro heq2
        exact hknotin (heq2 ▸ h2)
      obtain ⟨h1, h2⟩ := pureAggregate_all_ok fr fl ks hks
      constructor
      · simp [pureAggregate, hfail, h1]
      · simp [pureAggregate, hfail, h2]
    · have hne : k ≠ kf := fun heq => hknotin (heq ▸ hmem)
      obtain ⟨b, hb⟩ := hok k (List.mem_cons_self _ _) hne
      obtain ⟨ih1, ih2⟩ := ih hnd2 hmem hfail
        (fun k2 h2 hne2 => hok k2 (List.mem_cons_of_mem _ h2) hne2)
      have hpos : 0 < ks.length := List.length_pos.mpr (List.ne_nil_of_mem hmem)
      constructor
      · have hstep : (pureAggregate fr fl (k :: ks)).entries.length =
            (pureAggregate fr fl ks).entries.length + 1 := by
          simp [pureAggregate, hb]
        rw [hstep, ih1]
        simp only [List.length_cons]
        omega
      · have hstep : (pureAggregate fr fl (k :: ks)).skipped =
            (pureAggregate fr fl ks).skipped := by
          simp [pureAggregate, hb]
        rw [hstep, ih2]

/-- C3: an aggregate over distinct uncached keys in which exactly one key's
fetch permanently fails returns a report with the other keys' entries
(N - 1 of them) plus an explicit skipped list holding exactly that key with
its failure reason — the aggregate call itself is total and never fails. -/
theorem aggregate_single_unreachable_reports_rest
    (fr fl : SessionKey → AdapterResult) (keys : List SessionKey) (c : Cache)
    (kf : SessionKey) (e : ReconcileError)
    (hnd : keys.Nodup) (hcold : ∀ k ∈ keys, getCache c k = none)
    (hkf : kf ∈ keys) (hfail : fetchOutcome fr fl kf = .error e)
    (hok : ∀ k ∈ keys, k ≠ kf → ∃ b, fetchOutcome fr fl k = .ok b) :
    (aggregateRun fr fl keys c).1.entries.length = keys.length - 1 ∧
    (aggregateRun fr fl keys c).1.skipped = [(kf, e)] := by
  have hpure := runReport_cold fr fl keys c hnd hcold
  obtain ⟨h1, h2⟩ := pureAggregate_single_failure fr fl kf e keys hnd hkf hfail hok
  constructor
  · simp [aggregateRun, hpure, h1]
  · simp [aggregateRun, hpure, h2]

/-- Witness for C3: two keys, the silverstone fetch is unavailable — the
report has one entry and exactly that key in the skipped list. -/
theorem aggregate_single_unreachable_witness :
    (aggregateRun exFrFail exFl [exKey, exKey2] []).1.entries.length = 1 ∧
    (aggregateRun exFrFail exFl [exKey, exKey2] []).1.skipped =
      [(exKey2, ReconcileError.transient)] :=
  aggregate_single_unreachable_reports_rest exFrFail exFl [exKey, exKey2] []
    exKey2 .transient (by decide) (by decide) (by decide) (by decide)
    (by
      intro k hk hne
      simp only [List.mem_cons] at hk
      rcases hk with rfl | rfl | h0
      · exact ⟨exTieBundle, by decide⟩
      · exact absurd rfl hne
      · cases h0)

/-- C6: with deterministic adapters for immutable seasons and a coherent
starting cache, running the same aggregate twice with no invalidation in
between yields identical reports. -/
theorem aggregate_idempotent (fr fl : SessionKey → AdapterResult)
    (keys : List SessionKey) (c : Cache) (hc : coherent fr fl c) :
    (aggregateRun fr fl keys c).1 =
    (aggregateRun fr fl keys (aggregateRun fr fl keys c).2).1 := by
  obtain ⟨h1, h2⟩ := runReport_coherent fr fl keys c hc
  obtain ⟨h3, _⟩ := runReport_coherent fr fl keys _ h2
  simp only [aggregateRun] at h3 ⊢
  rw [h1, h3]

/-- Witness for C6: the double aggregate on a concrete key from the empty
cache. -/
theorem aggregate_idempotent_witness :
    (aggregateRun exFr exFl [exKey] []).1 =
    (aggregateRun exFr exFl [exKey] (aggregateRun exFr exFl [exKey] []).2).1 :=
  aggregate_idempotent exFr exFl [exKey] []
    (fun _ _ h => Option.noConfusion h)

end F1

namespace F1

theorem stepEvent_inv (s : FlightState) (e : CacheEvent)
    (h : flightInv s) : flightInv (stepEvent s e) := by
  rcases h with ⟨h0, hni, hnc⟩ | ⟨h1, hflag⟩
  · cases e with
    | request =>
      simp only [stepEvent, hnc, hni]
      right
      exact ⟨by simp [h0], Or.inl rfl⟩
    | complete b =>
      simp only [stepEvent, hni]
      left
      exact ⟨h0, hni, hnc⟩
  · cases e with
    | request =>
      simp only [stepEvent]
      rcases hc : s.cached with _ | b
      · by_cases hf : s.inFlight = true
        · simp only [hf, if_true]
          right
          exact ⟨h1, Or.inl rfl⟩
        · rcases hflag with hflag | hflag
          · exact absurd hflag hf
          · exact absurd hc hflag
      · right
        exact ⟨h1, Or.inr (by simp [hc])⟩
    | complete b =>
      simp only [stepEvent]
      by_cases hf : s.inFlight = true
      · simp only [hf, if_true]
        right
        exact ⟨h1, Or.inr (by simp)⟩
      · simp only [if_neg hf]
        right
        exact ⟨h1, hflag⟩

theorem stepEvent_fetches_one (s : FlightState) (e : CacheEvent)
    (hinv : flightInv s) (h1 : s.fetches = 1) :
    (stepEvent s e).fetches = 1 := by
  cases e with
  | request =>
    simp only [stepEvent]
    rcases hc : s.cached with _ | b
    · by_cases hf : s.inFlight = true
      · simp [hf, h1]
      · rcases hinv with ⟨h0, _, _⟩ | ⟨_, hflag | hflag⟩
        · rw [h1] at h0; cases h0
        · exact absurd hflag hf
        · exact absurd hc hflag
    · exact h1
  | complete b =>
    simp only [stepEvent]
    by_cases hf : s.inFlight = true
    · simp [hf, h1]
    · simp [hf, h1]

theorem runEvents_fetches (es : List CacheEvent) : ∀ s : FlightState,
    flightInv s → (s.fetches = 1 ∨ 1 ≤ es.countP isRequest) →
    (runEvents s es).fetches = 1 := by
  induction es with
  | nil =>
    intro s _ h
    rcases h with h | h
    · exact h
    · simp [List.countP_nil] at h
  | cons e es ih =>
    intro s hinv h
    have hstep : runEvents s (e :: es) = runEvents (stepEvent s e) es := rfl
    rw [hstep]
    have hinv2 := stepEvent_inv s e hinv
    have hinv0 := hinv
    rcases h with h1 | hcount
    · exact ih _ hinv2 (Or.inl (stepEvent_fetches_one s e hinv h1))
    · rcases hinv with ⟨h0, hni, hnc⟩ | ⟨h1, _⟩
      · cases e with
        | request =>
          have : (stepEvent s .request).fetches = 1 := by
            simp [stepEvent, hnc, hni, h0]
          exact ih _ hinv2 (Or.inl this)
        | complete b =>
          have hsame : stepEvent s (.complete b) = s := by
            simp [stepEvent, hni]
          rw [hsame]
          have hcount2 : 1 ≤ es.countP isRequest := by
            simpa [List.countP_cons, isRequest] using hcount
          exact ih s hinv0 (Or.inr hcount2)
      · exact ih _ hinv2 (Or.inl (stepEvent_fetches_one s e hinv0 h1))

theorem runEvents_replicate_requests (m : Nat) : ∀ w : Nat,
    runEvents ⟨none, true, w, 1⟩ (List.replicate m .request) =
      ⟨none, true, w + m, 1⟩ := by
  induction m with
  | zero => intro w; rfl
  | succ m ih =>
    intro w
    have hstep : runEvents (⟨none, true, w, 1⟩ : FlightState)
        (List.replicate (m + 1) .request) =
        runEvents (stepEvent ⟨none, true, w, 1⟩ .request)
          (List.replicate m .request) := by
      rw [List.replicate_succ]
      rfl
    rw [hstep]
    have hone : stepEvent (⟨none, true, w, 1⟩ : FlightState) .request =
        ⟨none, true, w + 1, 1⟩ := rfl
    rw [hone, ih (w + 1)]
    have : w + 1 + m = w + (m + 1) := by omega
    rw [this]

/-- C7: single-flight coalescing — from the cold state, any interleaving of
cache events containing at least one caller request issues exactly one
underlying fetch, and N concurrent requests for the same cold key leave one
fetch in flight with the other N - 1 callers coalesced as waiters. -/
theorem cache_single_flight :
    (∀ es : List CacheEvent, 1 ≤ es.countP isRequest →
      (runEvents coldState es).fetches = 1) ∧
    (∀ n : Nat, 1 ≤ n →
      runEvents coldState (List.replicate n .request) =
        ⟨none, true, n - 1, 1⟩) := by
  constructor
  · intro es h
    exact runEvents_fetches es coldState (Or.inl ⟨rfl, rfl, rfl⟩) (Or.inr h)
  · intro n hn
    rcases n with _ | m
    · cases hn
    · have hstep : runEvents coldState (List.replicate (m + 1) .request) =
          runEvents (stepEvent coldState .request) (List.replicate m .request) := by
        rw [List.replicate_succ]
        rfl
      have hone : stepEvent coldState .request =
          (⟨none, true, 0, 1⟩ : FlightState) := rfl
      rw [hstep, hone, runEvents_replicate_requests m 0]
      simp

/-- Witness for C7: three concurrent requests (and a later completion) on a
cold key trigger exactly one fetch, with two callers waiting. -/
theorem cache_single_flight_witness :
    (runEvents coldState
      [.request, .request, .complete exTieBundle, .request]).fetches = 1 ∧
    runEvents coldState (List.replicate 3 .request) = ⟨none, true, 2, 1⟩ :=
  ⟨cache_single_flight.1 _ (by decide), cache_single_flight.2 3 (by decide)⟩

end F1

namespace F1

theorem lookup_mem_snd {α β : Type} [BEq α] (a : α) (l : List (α × β)) (b : β) :
    l.lookup a = some b → b ∈ l.map Prod.snd := by
  induction l with
  | nil => intro h; cases h
  | cons p ps ih =>
    obtain ⟨k, v⟩ := p
    intro h
    simp only [List.lookup] at h
    split at h
    · injection h with h
      subst h
      exact List.mem_map_of_mem Prod.snd (List.mem_cons_self _ _)
    · exact List.mem_cons_of_mem _ (ih h)

/-- C8: validation at the core boundary is sound — any typed request admitted
from raw form data has every parameter (driver code, season, event, session
type) recognized by the closed filter configuration; unvalidated dynamic form
data never produces a pipeline request. -/
theorem validateRequest_sound (cfg : FilterConfig) (f : RawAnalysisForm)
    (r : AnalysisRequest) (h : validateRequest cfg f = some r) :
    r.driver ∈ cfg.driverCodes ∧
    cfg.seasonMin ≤ r.season ∧ r.season ≤ cfg.seasonMax ∧
    r.event ∈ cfg.events ∧
    r.sessionType ∈ cfg.sessionTypes.map Prod.snd := by
  unfold validateRequest at h
  split at h
  · split at h
    · cases h
    · rename_i y ev st d n hnat
      split at h
      · rename_i hcond
        split at h
        · rename_i t hlk
          injection h with h
          subst h
          exact ⟨hcond.2.2.2, hcond.1, hcond.2.1, hcond.2.2.1,
            lookup_mem_snd _ cfg.sessionTypes t hlk⟩
        · cases h
      · cases h
  · cases h

/-- Witness for C8: the concrete form (2024, monaco, race, VER) validates and
every admitted field is in the closed configuration. -/
theorem validateRequest_witness :
    validateRequest exConfig exForm =
      some ⟨"VER", 2024, "monaco", SessionType.race⟩ ∧
    ("VER" ∈ exConfig.driverCodes ∧
     exConfig.seasonMin ≤ 2024 ∧ 2024 ≤ exConfig.seasonMax ∧
     "monaco" ∈ exConfig.events ∧
     SessionType.race ∈ exConfig.sessionTypes.map Prod.snd) :=
  ⟨by decide,
   validateRequest_sound exConfig exForm ⟨"VER", 2024, "monaco", .race⟩
     (by decide)⟩

theorem runNav_bounds_aux (len : Nat) (ops : List (NavOp len)) :
    ∀ r : Nat, 1 ≤ r → r ≤ len →
    1 ≤ ops.foldl (applyNav len) r ∧ ops.foldl (applyNav len) r ≤ len := by
  induction ops with
  | nil => intro r h1 h2; exact ⟨h1, h2⟩
  | cons op ops ih =>
    intro r h1 h2
    have hstep : (op :: ops).foldl (applyNav len) r =
        ops.foldl (applyNav len) (applyNav len r op) := rfl
    rw [hstep]
    apply ih
    · cases op with
      | nextRace => simp only [applyNav]; split <;> omega
      | prevRace => simp only [applyNav]; split <;> omega
      | selectTab i => simp only [applyNav]; omega
    · cases op with
      | nextRace => simp only [applyNav]; split <;> omega
      | prevRace => simp only [applyNav]; split <;> omega
      | selectTab i =>
        simp only [applyNav]
        have := i.isLt
        omega

/-- C9: for a non-empty race list the selected round starts at 1 and stays in
[1, races.length] under any sequence of next/previous/tab operations, so the
indexed race races[selectedRound - 1] is always defined; the previous and
next buttons are disabled exactly at round 1 and round races.length. -/
theorem calendar_round_in_bounds (len : Nat) (hlen : 0 < len)
    (ops : List (NavOp len)) :
    1 ≤ runNav len ops ∧ runNav len ops ≤ len ∧
    runNav len ops - 1 < len ∧
    (prevDisabled (runNav len ops) = true ↔ runNav len ops = 1) ∧
    (nextDisabled (runNav len ops) len = true ↔ runNav len ops = len) := by
  obtain ⟨h1, h2⟩ := runNav_bounds_aux len ops 1 (le_refl 1) hlen
  have h1r : 1 ≤ runNav len ops := h1
  have h2r : runNav len ops ≤ len := h2
  refine ⟨h1r, h2r, by omega, ?_, ?_⟩
  · simp [prevDisabled]
  · simp [nextDisabled]

/-- Witness for C9: a concrete navigation sequence on a three-race calendar
stays in bounds. -/
theorem calendar_round_witness :
    1 ≤ runNav 3 exNavOps ∧ runNav 3 exNavOps ≤ 3 ∧
    runNav 3 exNavOps - 1 < 3 ∧
    (prevDisabled (runNav 3 exNavOps) = true ↔ runNav 3 exNavOps = 1) ∧
    (nextDisabled (runNav 3 exNavOps) 3 = true ↔ runNav 3 exNavOps = 3) :=
  calendar_round_in_bounds 3 (by decide) exNavOps

theorem leadsWith_nil (s : List Char) : leadsWith [] s = true := by
  cases s <;> rfl

theorem includesB_nil (s : List Char) : includesB [] s = true := by
  induction s with
  | nil => rfl
  | cons c cs ih => simp [includesB, leadsWith_nil, ih]

/-- C10: the data-browser filter returns exactly the items whose name, or
present code, contains the query case-insensitively, as an order-preserving
sublist of the input; the empty query returns the whole list unchanged. -/
theorem filteredItems_exact (q : String) (items : List DataItem) :
    filteredItems q items = items.filter (matchesQuery q) ∧
    List.Sublist (filteredItems q items) items ∧
    filteredItems "" items = items := by
  have hed : toLowerChars ("" : String).data = [] := rfl
  have hmain : filteredItems q items = items.filter (matchesQuery q) := by
    apply List.filter_congr
    intro item hitem
    rcases hcode : item.code with _ | c
    · simp [matchesQuery, hcode]
    · by_cases hc : c = ""
      · subst hc
        rcases hq : toLowerChars q.data with _ | ⟨a, as⟩
        · simp [matchesQuery, hcode, hq, hed, includesB_nil]
        · simp [matchesQuery, hcode, hq, hed, includesB]
      · have hcb : (c == "") = false := by
          simp [hc]
        simp [matchesQuery, hcode, hcb]
  refine ⟨hmain, ?_, ?_⟩
  · rw [hmain]; exact List.filter_sublist _
  · apply List.filter_eq_self.mpr
    intro item hitem
    simp [hed, includesB_nil]

end F1
